import Mathlib

/-!
Shallow embedding of the Minesweeper knowledge-based inference engine
(`Sentence` and `MinesweeperAI` in `src/Knowledge/minesweeper/minesweeper.py`),
together with theorems settling the specification claims about it.

Cells are pairs of integers `(row, column)`; cell sets are `Finset`s (Python
`set` with structural equality); the knowledge base is an ordered `List` of
sentences (Python `list`); sentence counts are `Int` (Python `int`, which may
go negative under `mark_mine`).
-/

set_option maxHeartbeats 1000000

/-- A board cell, a `(row, column)` pair of integers. -/
abbrev Cell : Type := Int × Int

/-- A logical sentence about the game: exactly `count` of `cells` are mines.
Embeds the Python class `Sentence` (`cells` a `set`, `count` an `int`).
Structural equality (`__eq__`: equal cell sets and equal counts) is exactly
the decidable equality instance below. -/
structure Sentence where
  cells : Finset Cell
  count : Int

instance : Inhabited Sentence := ⟨⟨∅, 0⟩⟩

instance : DecidableEq Sentence := fun s t =>
  decidable_of_iff (s.cells = t.cells ∧ s.count = t.count)
    (by cases s; cases t; simp)

/-- Embeds `Sentence.known_mines`: if `len(self.cells) == self.count`,
all the cells are mines, otherwise nothing is known. -/
def Sentence.known_mines (s : Sentence) : Finset Cell :=
  if (s.cells.card : Int) = s.count then s.cells else ∅

/-- Embeds `Sentence.known_safes`: if `self.count == 0`, all the cells are
safe, otherwise nothing is known. -/
def Sentence.known_safes (s : Sentence) : Finset Cell :=
  if s.count = 0 then s.cells else ∅

/-- Embeds `Sentence.mark_mine`: if the cell is in the sentence, remove it
and decrement the count. -/
def Sentence.mark_mine (s : Sentence) (cell : Cell) : Sentence :=
  if cell ∈ s.cells then ⟨s.cells.erase cell, s.count - 1⟩ else s

/-- Embeds `Sentence.mark_safe`: if the cell is in the sentence, remove it,
leaving the count unchanged. -/
def Sentence.mark_safe (s : Sentence) (cell : Cell) : Sentence :=
  if cell ∈ s.cells then ⟨s.cells.erase cell, s.count⟩ else s

/-- The state of the Python class `MinesweeperAI`: grid dimensions, the moves
made, the known mines (`self.mines`), the known safes (`self.safes`) and the
knowledge base (`self.knowledge`, an ordered list of sentences). -/
structure MinesweeperAI where
  height : Int
  width : Int
  moves_made : Finset Cell
  mines : Finset Cell
  safes : Finset Cell
  knowledge : List Sentence

instance : DecidableEq MinesweeperAI := fun a b =>
  decidable_of_iff (a.height = b.height ∧ a.width = b.width ∧
      a.moves_made = b.moves_made ∧ a.mines = b.mines ∧
      a.safes = b.safes ∧ a.knowledge = b.knowledge)
    (by cases a; cases b; simp)

/-- Embeds `MinesweeperAI.__init__`: empty sets of moves, mines and safes and
an empty knowledge base. -/
def initAI (height width : Int) : MinesweeperAI :=
  ⟨height, width, ∅, ∅, ∅, []⟩

/-- Embeds `MinesweeperAI.mark_mine`: add the cell to `self.mines` and apply
`Sentence.mark_mine` to every sentence of the knowledge base. -/
def MinesweeperAI.mark_mine (ai : MinesweeperAI) (cell : Cell) : MinesweeperAI :=
  { ai with mines := insert cell ai.mines,
            knowledge := ai.knowledge.map (fun s => s.mark_mine cell) }

/-- Embeds `MinesweeperAI.mark_safe`: add the cell to `self.safes` and apply
`Sentence.mark_safe` to every sentence of the knowledge base. -/
def MinesweeperAI.mark_safe (ai : MinesweeperAI) (cell : Cell) : MinesweeperAI :=
  { ai with safes := insert cell ai.safes,
            knowledge := ai.knowledge.map (fun s => s.mark_safe cell) }

/-- The bounds test `0 <= i < self.height and 0 <= j < self.width` used by the
neighbor scans. -/
def inBounds (height width : Int) (c : Cell) : Bool :=
  decide (0 ≤ c.1 ∧ c.1 < height ∧ 0 ≤ c.2 ∧ c.2 < width)

/-- The cells visited by the double loop `for i in range(cell[0]-1, cell[0]+2):
for j in range(cell[1]-1, cell[1]+2)` after the `(i, j) == cell` skip: the
eight neighbours of `cell`, in the loop's row-major order. -/
def nbhd (cell : Cell) : List Cell :=
  [(cell.1 - 1, cell.2 - 1), (cell.1 - 1, cell.2), (cell.1 - 1, cell.2 + 1),
   (cell.1, cell.2 - 1), (cell.1, cell.2 + 1),
   (cell.1 + 1, cell.2 - 1), (cell.1 + 1, cell.2), (cell.1 + 1, cell.2 + 1)]

/-- One iteration of the neighbor scan of `add_knowledge` step 3: an in-bounds
neighbor that is neither an already-made move nor a known mine joins
`nearby_cells`; otherwise, if it is a known mine, the working count is
decremented; any other neighbor is skipped. -/
def scanStep (ai : MinesweeperAI) (acc : Finset Cell × Int) (c : Cell) :
    Finset Cell × Int :=
  if inBounds ai.height ai.width c then
    if c ∉ ai.moves_made ∧ c ∉ ai.mines then (insert c acc.1, acc.2)
    else if c ∈ ai.mines then (acc.1, acc.2 - 1)
    else acc
  else acc

/-- The full neighbor scan of `add_knowledge` step 3, folding `scanStep` over
the eight neighbours starting from an empty `nearby_cells` and the reported
count. -/
def scanNeighbors (ai : MinesweeperAI) (cell : Cell) (count : Int) :
    Finset Cell × Int :=
  (nbhd cell).foldl (scanStep ai) (∅, count)

/-- The effect of the loop `for cell in known_safes_cells: self.mark_safe(cell)`
marking a whole set of cells safe: since the single-cell marks commute, the
loop's final state adds the set to `self.safes` and removes it from every
sentence (see `markSafeSet_singleton`). -/
def markSafeSet (ai : MinesweeperAI) (ks : Finset Cell) : MinesweeperAI :=
  { ai with safes := ai.safes ∪ ks,
            knowledge := ai.knowledge.map (fun s => ⟨s.cells \ ks, s.count⟩) }

/-- The effect of the loop `for cell in known_mines_cells: self.mark_mine(cell)`
marking a whole set of cells as mines: each cell of the set present in a
sentence is removed and decrements that sentence's count once (see
`markMineSet_singleton`). -/
def markMineSet (ai : MinesweeperAI) (km : Finset Cell) : MinesweeperAI :=
  { ai with mines := ai.mines ∪ km,
            knowledge := ai.knowledge.map
              (fun s => ⟨s.cells \ km, s.count - ((s.cells ∩ km).card : Int)⟩) }

/-- One iteration of `add_knowledge` step 4 on the sentence at index `i` of
the knowledge list: snapshot its `known_safes` and mark them all safe, then
read the (now mutated) sentence again, snapshot its `known_mines` and mark
them all as mines — exactly the Python loop body, where `sentence` aliases
the list element and is re-read after the safe marks. -/
def markPassStep (ai : MinesweeperAI) (i : Nat) : MinesweeperAI :=
  let s := ai.knowledge.getD i ⟨∅, 0⟩
  let ai1 := markSafeSet ai s.known_safes
  let s1 := ai1.knowledge.getD i ⟨∅, 0⟩
  markMineSet ai1 s1.known_mines

/-- Step 4 of `add_knowledge`: iterate `markPassStep` over every index of the
knowledge list (the Python `for sentence in self.knowledge` loop mutates
sentence contents but never the list structure, so positional iteration is
exact). -/
def markPass (ai : MinesweeperAI) : MinesweeperAI :=
  (List.range ai.knowledge.length).foldl markPassStep ai

/-- The purge `self.knowledge[:] = (x for x in self.knowledge if
len(x.cells) != 0)` removing sentences with empty cell sets. -/
def purgeEmpty (ai : MinesweeperAI) : MinesweeperAI :=
  { ai with knowledge := ai.knowledge.filter (fun s => s.cells.card != 0) }

/-- Step 5 of `add_knowledge`: the sentences appended by the double loop over
`knowledge_copy`, in loop order — for every ordered pair of positions
`(i, j)` with `i ≠ j` (the `sentence1 is sentence2` identity test: distinct
list positions hold distinct objects) such that the cells of sentence `i`
are a subset of the cells of sentence `j`, the difference sentence. There is
no membership test: every derived sentence is appended. -/
def derivedSentences (ks : List Sentence) : List Sentence :=
  (List.range ks.length).flatMap (fun i =>
    (List.range ks.length).filterMap (fun j =>
      if i = j then none
      else if (ks.getD i ⟨∅, 0⟩).cells ⊆ (ks.getD j ⟨∅, 0⟩).cells then
        some ⟨(ks.getD j ⟨∅, 0⟩).cells \ (ks.getD i ⟨∅, 0⟩).cells,
              (ks.getD j ⟨∅, 0⟩).count - (ks.getD i ⟨∅, 0⟩).count⟩
      else none))

/-- The body of the `while True:` loop of `add_knowledge` (steps 4 and 5):
mark newly known safes and mines, purge empty sentences, append every
sentence derivable by subset inference, and report whether any sentence was
appended. The Python body ends in an unconditional `return new`, so this
body runs exactly once per `add_knowledge` call. -/
def closurePass (ai : MinesweeperAI) : MinesweeperAI × Bool :=
  let ai := purgeEmpty (markPass ai)
  let ds := derivedSentences ai.knowledge
  ({ ai with knowledge := ai.knowledge ++ ds }, !ds.isEmpty)

/-- Steps 1 to 3 of `add_knowledge`: record the move, mark the observed cell
safe, scan the neighbours, and append the new sentence when its cell set is
non-empty and no structurally equal sentence is already present. -/
def recordStep (ai : MinesweeperAI) (cell : Cell) (count : Int) :
    MinesweeperAI :=
  let ai := { ai with moves_made := insert cell ai.moves_made }
  let ai := ai.mark_safe cell
  let sc := scanNeighbors ai cell count
  if sc.1 ≠ ∅ then
    let ns : Sentence := ⟨sc.1, sc.2⟩
    if ns ∈ ai.knowledge then ai
    else { ai with knowledge := ai.knowledge ++ [ns] }
  else ai

/-- The state after steps 1–4b of `add_knowledge` (through the purge, just
before the subset-inference step). -/
def preInference (ai : MinesweeperAI) (cell : Cell) (count : Int) :
    MinesweeperAI :=
  purgeEmpty (markPass (recordStep ai cell count))

/-- Embeds `MinesweeperAI.add_knowledge`: steps 1–3 (`recordStep`), then the
single execution of the `while True:` body (`closurePass`), returning the
mutated state together with the `new` flag. -/
def MinesweeperAI.add_knowledge (ai : MinesweeperAI) (cell : Cell)
    (count : Int) : MinesweeperAI × Bool :=
  closurePass (recordStep ai cell count)

/-- The fueled rendering of the `while True:` loop of `add_knowledge`: each
unit of fuel allows one execution of the loop body; the body ends in an
unconditional `return`, so the loop exits on its first iteration whenever
any fuel is available. -/
def closureLoopFuel : Nat → MinesweeperAI → Option (MinesweeperAI × Bool)
  | 0, _ => none
  | _ + 1, ai => some (closurePass ai)

/-- `add_knowledge` with an explicit pass budget for its closure loop. -/
def addKnowledgeFuel (fuel : Nat) (ai : MinesweeperAI) (cell : Cell)
    (count : Int) : Option (MinesweeperAI × Bool) :=
  closureLoopFuel fuel (recordStep ai cell count)

/-- An externally observable mutation of the knowledge base: an observation
(`add_knowledge`), a mine declaration (`mark_mine`) or a safe declaration
(`mark_safe`). -/
inductive Op where
  | observe (cell : Cell) (count : Int)
  | declareMine (cell : Cell)
  | declareSafe (cell : Cell)
  deriving DecidableEq

/-- Apply one operation to the knowledge base. -/
def applyOp (ai : MinesweeperAI) : Op → MinesweeperAI
  | .observe cell count => (ai.add_knowledge cell count).1
  | .declareMine cell => ai.mark_mine cell
  | .declareSafe cell => ai.mark_safe cell

/-- Apply a sequence of operations to the knowledge base. -/
def runOps (ai : MinesweeperAI) (ops : List Op) : MinesweeperAI :=
  ops.foldl applyOp ai

/-! ### Faithfulness bridges for the set-at-a-time marking denotations -/

/-- Marking a single-element set safe is exactly `MinesweeperAI.mark_safe`,
so `markSafeSet` is the order-independent denotation of the Python loop
`for cell in cells: self.mark_safe(cell)`. -/
theorem markSafeSet_singleton (ai : MinesweeperAI) (c : Cell) :
    markSafeSet ai {c} = ai.mark_safe c := by
  cases ai with
  | mk h w mm mn sf kn =>
    simp only [markSafeSet, MinesweeperAI.mark_safe, MinesweeperAI.mk.injEq,
      true_and]
    constructor
    · rw [Finset.union_comm, ← Finset.insert_eq]
    · refine List.map_congr_left (fun s _ => ?_)
      by_cases hc : c ∈ s.cells
      · simp [Sentence.mark_safe, hc, Finset.erase_eq]
      · simp [Sentence.mark_safe, hc, Finset.sdiff_singleton_eq_self hc]

/-- Marking a single-element set as mines is exactly
`MinesweeperAI.mark_mine`, so `markMineSet` is the order-independent
denotation of the Python loop `for cell in cells: self.mark_mine(cell)`. -/
theorem markMineSet_singleton (ai : MinesweeperAI) (c : Cell) :
    markMineSet ai {c} = ai.mark_mine c := by
  cases ai with
  | mk h w mm mn sf kn =>
    simp only [markMineSet, MinesweeperAI.mark_mine, MinesweeperAI.mk.injEq,
      true_and]
    constructor
    · rw [Finset.union_comm, ← Finset.insert_eq]
    · refine List.map_congr_left (fun s _ => ?_)
      by_cases hc : c ∈ s.cells
      · have : s.cells ∩ {c} = {c} := by
          ext x; simp only [Finset.mem_inter, Finset.mem_singleton]
          exact ⟨fun hx => hx.2, fun hx => ⟨hx ▸ hc, hx⟩⟩
        simp [Sentence.mark_mine, hc, Finset.erase_eq, this]
      · have : s.cells ∩ {c} = ∅ := by
          ext x
          simp only [Finset.mem_inter, Finset.mem_singleton,
            Finset.not_mem_empty, iff_false, not_and]
          intro hx hxc
          exact hc (hxc ▸ hx)
        simp [Sentence.mark_mine, hc, Finset.sdiff_singleton_eq_self hc, this]

/-! ### The neighbor scan of step 3 in closed form -/

/-- The in-bounds neighbours of a cell: the eight surrounding cells that lie
on the grid. -/
def inBoundsNbrs (height width : Int) (cell : Cell) : Finset Cell :=
  ((nbhd cell).filter (fun c => inBounds height width c)).toFinset

/-- The eight neighbours of any cell are pairwise distinct. -/
theorem nbhd_nodup (cell : Cell) : (nbhd cell).Nodup := by
  simp only [nbhd, List.nodup_cons, List.mem_cons, List.not_mem_nil, or_false,
    List.nodup_nil, and_true, Prod.mk.injEq, not_or, not_and]
  norm_num
  omega

/-- Closed form of folding `scanStep` over any list of candidate cells:
the in-bounds candidates outside `moves_made ∪ mines` are accumulated, and
the count is decremented once per occurrence of an in-bounds candidate that
is a known mine. -/
theorem scanStep_foldl (ai : MinesweeperAI) (L : List Cell)
    (S : Finset Cell) (m : Int) :
    L.foldl (scanStep ai) (S, m) =
      (S ∪ ((L.filter (fun c => inBounds ai.height ai.width c)).toFinset \
              (ai.moves_made ∪ ai.mines)),
       m - (L.countP
          (fun c => inBounds ai.height ai.width c && decide (c ∈ ai.mines)) :
            Int)) := by
  induction L generalizing S m with
  | nil => simp
  | cons c L ih =>
    rw [List.foldl_cons]
    by_cases hb : inBounds ai.height ai.width c
    · by_cases hmv : c ∈ ai.moves_made
      · by_cases hmn : c ∈ ai.mines
        · have hstep : scanStep ai (S, m) c = (S, m - 1) := by
            simp [scanStep, hb, hmv, hmn]
          rw [hstep, ih]
          have hfc : (c :: L).filter (fun c => inBounds ai.height ai.width c)
              = c :: L.filter (fun c => inBounds ai.height ai.width c) := by
            simp [List.filter_cons, hb]
          have hcnt : (c :: L).countP
              (fun c => inBounds ai.height ai.width c && decide (c ∈ ai.mines))
              = L.countP
                (fun c => inBounds ai.height ai.width c && decide (c ∈ ai.mines))
                + 1 := by
            simp [List.countP_cons, hb, hmn]
          rw [hfc, hcnt]
          refine Prod.ext ?_ ?_
          · simp only [List.toFinset_cons]
            rw [Finset.insert_sdiff_of_mem _
              (Finset.mem_union_right _ hmn)]
          · push_cast
            ring
        · have hstep : scanStep ai (S, m) c = (S, m) := by
            simp [scanStep, hb, hmv, hmn]
          rw [hstep, ih]
          have hfc : (c :: L).filter (fun c => inBounds ai.height ai.width c)
              = c :: L.filter (fun c => inBounds ai.height ai.width c) := by
            simp [List.filter_cons, hb]
          have hcnt : (c :: L).countP
              (fun c => inBounds ai.height ai.width c && decide (c ∈ ai.mines))
              = L.countP
                (fun c => inBounds ai.height ai.width c && decide (c ∈ ai.mines)) := by
            simp [List.countP_cons, hmn]
          rw [hfc, hcnt]
          refine Prod.ext ?_ rfl
          simp only [List.toFinset_cons]
          rw [Finset.insert_sdiff_of_mem _ (Finset.mem_union_left _ hmv)]
      · by_cases hmn : c ∈ ai.mines
        · have hstep : scanStep ai (S, m) c = (S, m - 1) := by
            simp [scanStep, hb, hmv, hmn]
          rw [hstep, ih]
          have hfc : (c :: L).filter (fun c => inBounds ai.height ai.width c)
              = c :: L.filter (fun c => inBounds ai.height ai.width c) := by
            simp [List.filter_cons, hb]
          have hcnt : (c :: L).countP
              (fun c => inBounds ai.height ai.width c && decide (c ∈ ai.mines))
              = L.countP
                (fun c => inBounds ai.height ai.width c && decide (c ∈ ai.mines))
                + 1 := by
            simp [List.countP_cons, hb, hmn]
          rw [hfc, hcnt]
          refine Prod.ext ?_ ?_
          · simp only [List.toFinset_cons]
            rw [Finset.insert_sdiff_of_mem _
              (Finset.mem_union_right _ hmn)]
          · push_cast
            ring
        · have hstep : scanStep ai (S, m) c = (insert c S, m) := by
            simp [scanStep, hb, hmv, hmn]
          rw [hstep, ih]
          have hfc : (c :: L).filter (fun c => inBounds ai.height ai.width c)
              = c :: L.filter (fun c => inBounds ai.height ai.width c) := by
            simp [List.filter_cons, hb]
          have hcnt : (c :: L).countP
              (fun c => inBounds ai.height ai.width c && decide (c ∈ ai.mines))
              = L.countP
                (fun c => inBounds ai.height ai.width c && decide (c ∈ ai.mines)) := by
            simp [List.countP_cons, hmn]
          rw [hfc, hcnt]
          refine Prod.ext ?_ rfl
          have hcd : c ∉ ai.moves_made ∪ ai.mines := by
            simp [Finset.mem_union, hmv, hmn]
          simp only [List.toFinset_cons]
          rw [Finset.insert_sdiff_of_not_mem _ hcd, Finset.union_insert]
          rw [Finset.insert_union]
    · have hstep : scanStep ai (S, m) c = (S, m) := by
        simp [scanStep, hb]
      rw [hstep, ih]
      have hfc : (c :: L).filter (fun c => inBounds ai.height ai.width c)
          = L.filter (fun c => inBounds ai.height ai.width c) := by
        simp [List.filter_cons, hb]
      have hcnt : (c :: L).countP
          (fun c => inBounds ai.height ai.width c && decide (c ∈ ai.mines))
          = L.countP
            (fun c => inBounds ai.height ai.width c && decide (c ∈ ai.mines)) := by
        simp [List.countP_cons, hb]
      rw [hfc, hcnt]

/-- Closed form of the full step-3 neighbor scan: the new sentence's cells
are the in-bounds neighbours outside `moves_made ∪ mines`, and the working
count is the reported count minus the number of in-bounds neighbours that
are known mines. -/
theorem scanNeighbors_eq (ai : MinesweeperAI) (cell : Cell) (count : Int) :
    scanNeighbors ai cell count =
      (inBoundsNbrs ai.height ai.width cell \ (ai.moves_made ∪ ai.mines),
       count - ((inBoundsNbrs ai.height ai.width cell ∩ ai.mines).card : Int)) := by
  rw [scanNeighbors, scanStep_foldl]
  refine Prod.ext ?_ ?_
  · simp [inBoundsNbrs]
  · have h1 : inBoundsNbrs ai.height ai.width cell ∩ ai.mines =
        ((nbhd cell).filter
          (fun c => inBounds ai.height ai.width c && decide (c ∈ ai.mines))).toFinset := by
      ext x
      simp [inBoundsNbrs, List.mem_filter]
      tauto
    have h2 : ((nbhd cell).filter
        (fun c => inBounds ai.height ai.width c && decide (c ∈ ai.mines))).Nodup :=
      (nbhd_nodup cell).filter _
    rw [h1, List.toFinset_card_of_nodup h2, ← List.countP_eq_length_filter]

/-! ### Concrete states used by the claim theorems -/

/-- A knowledge base on a 2×3 grid holding the single constraint
`{(0,0),(0,1)} = 1`, with the two bottom corner cells already revealed, so
that observing `(1,1)` contributes exactly the constraint
`{(0,0),(0,1),(0,2)} = 2`. -/
def exampleKB : MinesweeperAI :=
  ⟨2, 3, {(1, 0), (1, 2)}, ∅, {(1, 0), (1, 2)}, [⟨{(0, 0), (0, 1)}, 1⟩]⟩

/-- The state reached on a 2×3 board with a mine at `(0,0)` after the honest
observation `add_knowledge((1,2), 0)` from a fresh agent: the three
neighbours `(0,1)`, `(0,2)`, `(1,1)` are deduced safe but have not been
moved on. -/
def exampleSafeKB : MinesweeperAI :=
  runOps (initAI 2 3) [.observe (1, 2) 0]

/-! ### Claim C1 — the closure loop returns after a single pass -/

/-- Claim C1: the specification says `add_knowledge` repeats the closure
pass until a full pass declares no new cell and adds no new constraint.
The code's `while True:` body ends in an unconditional `return new`, so the
loop body runs exactly once. Concretely, from `exampleKB`, the call
`add_knowledge((1,1), 2)` returns with `new = true` (its only pass did add
constraints, so the loop should have gone round again), and one further
pass over the returned state still derives a brand-new fact: it marks
`(0,2)` as a mine, which the returned state had not concluded. -/
theorem c1_loop_exits_after_one_pass :
    (exampleKB.add_knowledge (1, 1) 2).2 = true ∧
    (0, 2) ∉ (exampleKB.add_knowledge (1, 1) 2).1.mines ∧
    (0, 2) ∈ (closurePass (exampleKB.add_knowledge (1, 1) 2).1).1.mines := by
  decide

/-! ### Claim C2 — subset inference does not reach the mine conclusion -/

/-- Claim C2: with constraint `A = {(0,0),(0,1)} = 1` in the base, the
observation adding `B = {(0,0),(0,1),(0,2)} = 2` does derive the constraint
`{(0,2)} = 1` by subset inference, but the call returns before any pass
reads that derived constraint, so `(0,2)` is not in the known mines when
`add_knowledge` returns — contrary to the claim. -/
theorem c2_mine_not_concluded_same_call :
    Sentence.mk {(0, 2)} 1 ∈ (exampleKB.add_knowledge (1, 1) 2).1.knowledge ∧
    (0, 2) ∉ (exampleKB.add_knowledge (1, 1) 2).1.mines := by
  decide

/-! ### Claim C3 — the step-3 scan filters on moves and mines, not on safes -/

/-- Claim C3, counterexample: in the reachable state `exampleSafeKB` the
cell `(0,1)` is known safe but not yet moved on, and the constraint built
by observing `(1,1)` keeps `(0,1)` (and `(0,2)`) in its cell set, so a
neighbor already in `knownSafe` is not excluded as the claim states. -/
theorem c3_safe_neighbor_included :
    (0, 1) ∈ exampleSafeKB.safes ∧
    (0, 1) ∉ exampleSafeKB.moves_made ∧
    (0, 1) ∉ exampleSafeKB.mines ∧
    (recordStep exampleSafeKB (1, 1) 1).knowledge =
      [⟨{(0, 0), (0, 1), (0, 2), (1, 0)}, 1⟩] := by
  decide

/-- Claim C3, amended: the new constraint's cell set consists exactly of the
in-bounds neighbours that are in neither `moves_made` nor `mines`; each
neighbor in `mines` decrements the working count by one and each neighbor
in `moves_made` is excluded without changing the count; but a neighbor that
is merely in `safes` (and not in `moves_made`) is NOT excluded: it stays in
the new constraint's cell set. -/
theorem c3_scan_closed_form (ai : MinesweeperAI) (cell : Cell) (count : Int) :
    scanNeighbors ai cell count =
      (inBoundsNbrs ai.height ai.width cell \ (ai.moves_made ∪ ai.mines),
       count - ((inBoundsNbrs ai.height ai.width cell ∩ ai.mines).card : Int)) ∧
    ∀ c ∈ ai.safes, c ∈ inBoundsNbrs ai.height ai.width cell →
      c ∉ ai.moves_made → c ∉ ai.mines →
      c ∈ (scanNeighbors ai cell count).1 := by
  refine ⟨scanNeighbors_eq ai cell count, ?_⟩
  intro c _ hnb hmv hmn
  rw [scanNeighbors_eq]
  simp only [Finset.mem_sdiff, Finset.mem_union]
  exact ⟨hnb, by tauto⟩

/-- Witness for `c3_scan_closed_form` at a concrete state: the known-safe,
unmoved neighbor `(0,1)` lands in the scanned cell set. -/
theorem c3_scan_closed_form_witness :
    ((0 : Int), (1 : Int)) ∈
      (scanNeighbors ⟨2, 3, ∅, ∅, {(0, 1)}, []⟩ (1, 1) 1).1 :=
  (c3_scan_closed_form ⟨2, 3, ∅, ∅, {(0, 1)}, []⟩ (1, 1) 1).2 (0, 1)
    (by decide) (by decide) (by decide) (by decide)

/-! ### Claim C9 — the closure loop terminates within any positive pass budget -/

/-- Claim C9: for any state and observation the `while True:` loop of
`add_knowledge` completes within a bounded number of passes — its body ends
in `return`, so a budget of one pass (in particular any budget such as
`2 * height * width ≥ 1`) always suffices and the call terminates. -/
theorem c9_closure_single_pass_bounded (ai : MinesweeperAI) (cell : Cell)
    (count : Int) (fuel : Nat) (hfuel : 1 ≤ fuel) :
    addKnowledgeFuel fuel ai cell count = some (ai.add_knowledge cell count) := by
  cases fuel with
  | zero => exact absurd hfuel (by decide)
  | succ n => rfl

/-- Witness for `c9_closure_single_pass_bounded`: a single pass of budget
suffices for an observation on a fresh 2×2 agent. -/
theorem c9_closure_witness :
    addKnowledgeFuel 1 (initAI 2 2) (0, 0) 0 =
      some ((initAI 2 2).add_knowledge (0, 0) 0) :=
  c9_closure_single_pass_bounded (initAI 2 2) (0, 0) 0 1 (by decide)

/-! ### Claim C10 — frame of the declaration operations -/

/-- Claim C10: `mark_safe` mutates only `safes` and the sentence contents
(`moves_made`, `mines`, the grid and the number of sentences are
unchanged), and symmetrically `mark_mine` mutates only `mines` and the
sentence contents, leaving `moves_made` and `safes` unchanged. -/
theorem c10_declare_frame (ai : MinesweeperAI) (cell : Cell) :
    (ai.mark_safe cell).moves_made = ai.moves_made ∧
    (ai.mark_safe cell).mines = ai.mines ∧
    (ai.mark_safe cell).height = ai.height ∧
    (ai.mark_safe cell).width = ai.width ∧
    (ai.mark_safe cell).knowledge.length = ai.knowledge.length ∧
    (ai.mark_mine cell).moves_made = ai.moves_made ∧
    (ai.mark_mine cell).safes = ai.safes ∧
    (ai.mark_mine cell).height = ai.height ∧
    (ai.mark_mine cell).width = ai.width ∧
    (ai.mark_mine cell).knowledge.length = ai.knowledge.length := by
  refine ⟨rfl, rfl, rfl, rfl, ?_, rfl, rfl, rfl, rfl, ?_⟩ <;>
    simp [MinesweeperAI.mark_safe, MinesweeperAI.mark_mine]

/-! ### Membership in the derived-sentence list -/

/-- A sentence is produced by the subset-inference step exactly when it is
the difference sentence of an ordered pair of distinct positions whose cell
sets are in the subset relation. -/
theorem mem_derivedSentences {ks : List Sentence} {st : Sentence} :
    st ∈ derivedSentences ks ↔
      ∃ i j, i ≠ j ∧ i < ks.length ∧ j < ks.length ∧
        (ks.getD i ⟨∅, 0⟩).cells ⊆ (ks.getD j ⟨∅, 0⟩).cells ∧
        st = ⟨(ks.getD j ⟨∅, 0⟩).cells \ (ks.getD i ⟨∅, 0⟩).cells,
              (ks.getD j ⟨∅, 0⟩).count - (ks.getD i ⟨∅, 0⟩).count⟩ := by
  simp only [derivedSentences, List.mem_flatMap, List.mem_filterMap,
    List.mem_range]
  constructor
  · rintro ⟨i, hi, j, hj, hopt⟩
    by_cases hij : i = j
    · rw [if_pos hij] at hopt
      cases hopt
    · rw [if_neg hij] at hopt
      by_cases hsub : (ks.getD i ⟨∅, 0⟩).cells ⊆ (ks.getD j ⟨∅, 0⟩).cells
      · rw [if_pos hsub] at hopt
        exact ⟨i, j, hij, hi, hj, hsub, (Option.some_inj.mp hopt).symm⟩
      · rw [if_neg hsub] at hopt
        cases hopt
  · rintro ⟨i, j, hij, hi, hj, hsub, hst⟩
    exact ⟨i, hi, j, ⟨hj, by rw [if_neg hij, if_pos hsub, hst]⟩⟩

/-- Every sentence produced by the subset-inference step has its cell set
contained in the cell set of one of the input sentences. -/
theorem derivedSentences_cells_subset {ks : List Sentence} {st : Sentence}
    (hst : st ∈ derivedSentences ks) :
    ∃ t ∈ ks, st.cells ⊆ t.cells := by
  rcases mem_derivedSentences.mp hst with ⟨i, j, _, _, hj, _, hst⟩
  refine ⟨ks.getD j ⟨∅, 0⟩, ?_, ?_⟩
  · rw [List.getD_eq_getElem _ _ hj]
    exact List.getElem_mem hj
  · rw [hst]
    exact Finset.sdiff_subset

/-! ### Claim C4 — which resolved cells are kept out of live constraints -/

/-- The invariant that actually holds: no live sentence mentions a cell of
`mines` or of `moves_made` (the spec's claim additionally demands `safes`,
which the code does not maintain). -/
def noResolvedInKnowledge (ai : MinesweeperAI) : Prop :=
  ∀ st ∈ ai.knowledge, ∀ c ∈ st.cells, c ∉ ai.mines ∧ c ∉ ai.moves_made

theorem Sentence.mark_safe_cells_mem {s : Sentence} {cell x : Cell}
    (hx : x ∈ (s.mark_safe cell).cells) : x ∈ s.cells ∧ x ≠ cell := by
  by_cases hc : cell ∈ s.cells
  · rw [Sentence.mark_safe, if_pos hc] at hx
    exact ⟨Finset.mem_of_mem_erase hx, Finset.ne_of_mem_erase hx⟩
  · rw [Sentence.mark_safe, if_neg hc] at hx
    exact ⟨hx, fun h => hc (h ▸ hx)⟩

theorem Sentence.mark_mine_cells_mem {s : Sentence} {cell x : Cell}
    (hx : x ∈ (s.mark_mine cell).cells) : x ∈ s.cells ∧ x ≠ cell := by
  by_cases hc : cell ∈ s.cells
  · rw [Sentence.mark_mine, if_pos hc] at hx
    exact ⟨Finset.mem_of_mem_erase hx, Finset.ne_of_mem_erase hx⟩
  · rw [Sentence.mark_mine, if_neg hc] at hx
    exact ⟨hx, fun h => hc (h ▸ hx)⟩

theorem noResolved_mark_mine {ai : MinesweeperAI} (h : noResolvedInKnowledge ai)
    (cell : Cell) : noResolvedInKnowledge (ai.mark_mine cell) := by
  intro st hst c hc
  rw [MinesweeperAI.mark_mine] at hst
  simp only [List.mem_map] at hst
  rcases hst with ⟨t, ht, rfl⟩
  rcases Sentence.mark_mine_cells_mem hc with ⟨hct, hne⟩
  rcases h t ht c hct with ⟨hm, hmv⟩
  exact ⟨by simp [MinesweeperAI.mark_mine, Finset.mem_insert, hne, hm], hmv⟩

theorem noResolved_mark_safe {ai : MinesweeperAI} (h : noResolvedInKnowledge ai)
    (cell : Cell) : noResolvedInKnowledge (ai.mark_safe cell) := by
  intro st hst c hc
  rw [MinesweeperAI.mark_safe] at hst
  simp only [List.mem_map] at hst
  rcases hst with ⟨t, ht, rfl⟩
  rcases Sentence.mark_safe_cells_mem hc with ⟨hct, _⟩
  exact h t ht c hct

theorem noResolved_markSafeSet {ai : MinesweeperAI}
    (h : noResolvedInKnowledge ai) (K : Finset Cell) :
    noResolvedInKnowledge (markSafeSet ai K) := by
  intro st hst c hc
  rw [markSafeSet] at hst
  simp only [List.mem_map] at hst
  rcases hst with ⟨t, ht, rfl⟩
  exact h t ht c (Finset.mem_sdiff.mp hc).1

theorem noResolved_markMineSet {ai : MinesweeperAI}
    (h : noResolvedInKnowledge ai) (K : Finset Cell) :
    noResolvedInKnowledge (markMineSet ai K) := by
  intro st hst c hc
  rw [markMineSet] at hst
  simp only [List.mem_map] at hst
  rcases hst with ⟨t, ht, rfl⟩
  rcases Finset.mem_sdiff.mp hc with ⟨hct, hcK⟩
  rcases h t ht c hct with ⟨hm, hmv⟩
  exact ⟨by simp [markMineSet, Finset.mem_union, hm, hcK], hmv⟩

theorem noResolved_markPassStep {ai : MinesweeperAI}
    (h : noResolvedInKnowledge ai) (i : Nat) :
    noResolvedInKnowledge (markPassStep ai i) :=
  noResolved_markMineSet (noResolved_markSafeSet h _) _

theorem noResolved_markPass {ai : MinesweeperAI}
    (h : noResolvedInKnowledge ai) : noResolvedInKnowledge (markPass ai) := by
  rw [markPass]
  generalize List.range ai.knowledge.length = l
  induction l generalizing ai with
  | nil => exact h
  | cons i l ih => exact ih (noResolved_markPassStep h i)

theorem noResolved_purgeEmpty {ai : MinesweeperAI}
    (h : noResolvedInKnowledge ai) : noResolvedInKnowledge (purgeEmpty ai) := by
  intro st hst c hc
  rw [purgeEmpty] at hst
  exact h st (List.mem_of_mem_filter hst) c hc

theorem noResolved_recordStep {ai : MinesweeperAI}
    (h : noResolvedInKnowledge ai) (cell : Cell) (count : Int) :
    noResolvedInKnowledge (recordStep ai cell count) := by
  have h2 : noResolvedInKnowledge
      (MinesweeperAI.mark_safe
        { ai with moves_made := insert cell ai.moves_made } cell) := by
    intro st hst c hc
    simp only [MinesweeperAI.mark_safe, List.mem_map] at hst
    rcases hst with ⟨t, ht, rfl⟩
    rcases Sentence.mark_safe_cells_mem hc with ⟨hct, hne⟩
    rcases h t ht c hct with ⟨hm, hmv⟩
    exact ⟨hm, by simp [MinesweeperAI.mark_safe, Finset.mem_insert, hne, hmv]⟩
  rw [recordStep]
  set ai2 := MinesweeperAI.mark_safe
    { ai with moves_made := insert cell ai.moves_made } cell with hai2
  by_cases hne : (scanNeighbors ai2 cell count).1 ≠ ∅
  · rw [if_pos hne]
    by_cases hmem :
        (⟨(scanNeighbors ai2 cell count).1,
          (scanNeighbors ai2 cell count).2⟩ : Sentence) ∈ ai2.knowledge
    · rw [if_pos hmem]
      exact h2
    · rw [if_neg hmem]
      intro st hst c hc
      rcases List.mem_append.mp hst with hst | hst
      · exact h2 st hst c hc
      · rcases List.mem_singleton.mp hst with rfl
        have := (scanNeighbors_eq ai2 cell count)
        rw [Prod.ext_iff] at this
        rw [this.1] at hc
        rcases Finset.mem_sdiff.mp hc with ⟨_, hcd⟩
        rw [Finset.mem_union] at hcd
        push_neg at hcd
        exact ⟨hcd.2, hcd.1⟩
  · rw [if_neg hne]
    exact h2

theorem noResolved_closurePass {ai : MinesweeperAI}
    (h : noResolvedInKnowledge ai) :
    noResolvedInKnowledge (closurePass ai).1 := by
  have h3 : noResolvedInKnowledge (purgeEmpty (markPass ai)) :=
    noResolved_purgeEmpty (noResolved_markPass h)
  intro st hst c hc
  rw [closurePass] at hst
  simp only at hst
  rcases List.mem_append.mp hst with hst | hst
  · exact h3 st hst c hc
  · rcases derivedSentences_cells_subset hst with ⟨t, ht, hsub⟩
    exact h3 t ht c (hsub hc)

theorem noResolved_applyOp {ai : MinesweeperAI}
    (h : noResolvedInKnowledge ai) (op : Op) :
    noResolvedInKnowledge (applyOp ai op) := by
  cases op with
  | observe cell count =>
      exact noResolved_closurePass (noResolved_recordStep h cell count)
  | declareMine cell => exact noResolved_mark_mine h cell
  | declareSafe cell => exact noResolved_mark_safe h cell

theorem noResolved_runOps {ai : MinesweeperAI}
    (h : noResolvedInKnowledge ai) (ops : List Op) :
    noResolvedInKnowledge (runOps ai ops) := by
  rw [runOps]
  induction ops generalizing ai with
  | nil => exact h
  | cons op ops ih => exact ih (noResolved_applyOp h op)

/-- Claim C4, counterexample: after the honest trace
`observe (1,2) 0; observe (1,1) 1` on a 2×3 board with a mine at `(0,0)`,
the live constraint `{(0,0),(0,1),(0,2),(1,0)} = 1` contains the cells
`(0,1)` and `(0,2)` which are in `knownSafe`, so a live constraint's cell
set does intersect `knownSafe ∪ knownMines`. -/
theorem c4_safe_cell_in_live_constraint :
    ¬ ∀ st ∈ (runOps (initAI 2 3)
          [.observe (1, 2) 0, .observe (1, 1) 1]).knowledge,
        ∀ c ∈ st.cells,
          c ∉ (runOps (initAI 2 3)
                [.observe (1, 2) 0, .observe (1, 1) 1]).safes ∪
              (runOps (initAI 2 3)
                [.observe (1, 2) 0, .observe (1, 1) 1]).mines := by
  decide

/-- Claim C4, amended: after any sequence of
`RecordObservation`/`DeclareSafe`/`DeclareMine` calls from a fresh agent,
no live constraint's cell set contains any cell of
`knownMines ∪ movesMade`. The `knownSafe` half of the claimed invariant is
refuted by `c4_safe_cell_in_live_constraint`: the step-3 scan never
consults `safes`, so known-safe but not-yet-moved cells may enter new
constraints. -/
theorem c4_no_move_or_mine_in_live_constraint (h w : Int) (ops : List Op) :
    ∀ st ∈ (runOps (initAI h w) ops).knowledge, ∀ c ∈ st.cells,
      c ∉ (runOps (initAI h w) ops).mines ∧
      c ∉ (runOps (initAI h w) ops).moves_made :=
  noResolved_runOps (by intro st hst; cases hst) ops

/-- Witness for `c4_no_move_or_mine_in_live_constraint` on a concrete
reachable state and live constraint. -/
theorem c4_no_move_or_mine_witness :
    ((0, 0) : Cell) ∉ (runOps (initAI 2 3)
        [.observe (1, 2) 0, .observe (1, 1) 1]).mines ∧
    ((0, 0) : Cell) ∉ (runOps (initAI 2 3)
        [.observe (1, 2) 0, .observe (1, 1) 1]).moves_made :=
  c4_no_move_or_mine_in_live_constraint 2 3
    [.observe (1, 2) 0, .observe (1, 1) 1]
    ⟨{(0, 0), (0, 1), (0, 2), (1, 0)}, 1⟩ (by decide) (0, 0) (by decide)

/-! ### Claim C5 — derived constraints are appended without deduplication -/

/-- A knowledge base on a 4×4 grid that already holds
`A = {(0,0),(0,1)} = 1`, `B = {(0,0),(0,1),(0,2),(0,3)} = 2` and their
difference `D = {(0,2),(0,3)} = 1`, with the three neighbours of `(3,3)`
already revealed so that observing `(3,3)` contributes no new sentence. -/
def exampleDupKB : MinesweeperAI :=
  ⟨4, 4, {(2, 2), (2, 3), (3, 2)}, ∅, {(2, 2), (2, 3), (3, 2)},
   [⟨{(0, 0), (0, 1)}, 1⟩, ⟨{(0, 0), (0, 1), (0, 2), (0, 3)}, 2⟩,
    ⟨{(0, 2), (0, 3)}, 1⟩]⟩

/-- The sentence list of `exampleDupKB`, used to exercise the
subset-inference step directly. -/
def exampleDupKs : List Sentence :=
  [⟨{(0, 0), (0, 1)}, 1⟩, ⟨{(0, 0), (0, 1), (0, 2), (0, 3)}, 2⟩,
   ⟨{(0, 2), (0, 3)}, 1⟩]

/-- Claim C5, counterexample: `D = {(0,2),(0,3)} = 1` is already present in
`exampleDupKB`, yet the subset pair `(A, B)` re-derives it and the code
appends it anyway — after the call the collection holds `D` twice, so the
claimed present-check does not exist. -/
theorem c5_duplicate_derived_inserted :
    Sentence.mk {(0, 2), (0, 3)} 1 ∈ exampleDupKB.knowledge ∧
    (exampleDupKB.add_knowledge (3, 3) 0).1.knowledge.count
      (Sentence.mk {(0, 2), (0, 3)} 1) = 2 := by
  decide

/-- Claim C5, amended: for every ordered pair of distinct live constraints
`(A, B)` with `A.cells ⊆ B.cells`, the derived constraint
`D = {B.cells − A.cells, B.count − A.count}` is appended unconditionally —
there is no structural-equality presence check, so if an equal constraint
is already present the collection ends up holding it at least twice. -/
theorem c5_derived_appended_unconditionally (ks : List Sentence)
    (D : Sentence) (i j : Nat) (hij : i ≠ j) (hi : i < ks.length)
    (hj : j < ks.length)
    (hsub : (ks.getD i ⟨∅, 0⟩).cells ⊆ (ks.getD j ⟨∅, 0⟩).cells)
    (hD : D = ⟨(ks.getD j ⟨∅, 0⟩).cells \ (ks.getD i ⟨∅, 0⟩).cells,
               (ks.getD j ⟨∅, 0⟩).count - (ks.getD i ⟨∅, 0⟩).count⟩)
    (hmem : D ∈ ks) :
    2 ≤ (ks ++ derivedSentences ks).count D := by
  have h1 : D ∈ derivedSentences ks :=
    mem_derivedSentences.mpr ⟨i, j, hij, hi, hj, hsub, hD⟩
  rw [List.count_append]
  have c1 : 0 < ks.count D := List.count_pos_iff.mpr hmem
  have c2 : 0 < (derivedSentences ks).count D := List.count_pos_iff.mpr h1
  omega

/-- Witness for `c5_derived_appended_unconditionally` on the concrete pair
`(A, B)` of `exampleDupKs` re-deriving the already-present `D`. -/
theorem c5_derived_appended_witness :
    2 ≤ (exampleDupKs ++ derivedSentences exampleDupKs).count
        (Sentence.mk {(0, 2), (0, 3)} 1) :=
  c5_derived_appended_unconditionally exampleDupKs
    (Sentence.mk {(0, 2), (0, 3)} 1) 0 1 (by decide) (by decide) (by decide)
    (by decide) (by decide) (by decide)

/-! ### Claim C6 — empty constraints survive the call that derives them -/

/-- The honest trace on a 2×4 board with mines at `(0,1)` and `(0,2)` whose
final observation leaves two structurally equal live constraints in the
base; their mutual subset inference appends the empty sentence `∅ = 0`. -/
def exampleTraceC6 : List Op :=
  [.observe (1, 0) 1, .observe (1, 3) 1, .observe (1, 1) 2, .observe (1, 2) 2]

/-- Claim C6, counterexample: after the honest trace `exampleTraceC6` from
a fresh 2×4 agent, the returned knowledge base contains a constraint with
an empty cell set, so `RecordObservation` does not always purge empty
constraints before returning. -/
theorem c6_empty_constraint_survives :
    Sentence.mk ∅ 0 ∈ (runOps (initAI 2 4) exampleTraceC6).knowledge := by
  decide

/-- Claim C6, amended: the purge runs before the subset-inference step, so
the knowledge base is free of empty constraints at that point, and every
empty constraint present when `add_knowledge` returns is one freshly
appended by that same call's subset-inference step (derived from a pair of
constraints with equal cell sets); it survives until a later call's purge. -/
theorem c6_empty_only_from_final_inference (ai : MinesweeperAI) (cell : Cell)
    (count : Int) :
    (∀ st ∈ (preInference ai cell count).knowledge, st.cells ≠ ∅) ∧
    (ai.add_knowledge cell count).1.knowledge =
      (preInference ai cell count).knowledge ++
        derivedSentences (preInference ai cell count).knowledge ∧
    ∀ st ∈ (ai.add_knowledge cell count).1.knowledge, st.cells = ∅ →
      st ∈ derivedSentences (preInference ai cell count).knowledge := by
  have hpre : ∀ st ∈ (preInference ai cell count).knowledge, st.cells ≠ ∅ := by
    intro st hst hempty
    simp only [preInference, purgeEmpty] at hst
    have h2 := (List.mem_filter.mp hst).2
    rw [hempty] at h2
    simp at h2
  have heq : (ai.add_knowledge cell count).1.knowledge =
      (preInference ai cell count).knowledge ++
        derivedSentences (preInference ai cell count).knowledge := rfl
  refine ⟨hpre, heq, ?_⟩
  intro st hst hempty
  rw [heq] at hst
  rcases List.mem_append.mp hst with h | h
  · exact absurd hempty (hpre st h)
  · exact h

/-- Witness for `c6_empty_only_from_final_inference`: the empty constraint
present after the last call of `exampleTraceC6` is indeed produced by that
call's subset-inference step. -/
theorem c6_empty_only_witness :
    Sentence.mk ∅ 0 ∈ derivedSentences
      (preInference (runOps (initAI 2 4)
          [.observe (1, 0) 1, .observe (1, 3) 1, .observe (1, 1) 2])
        (1, 2) 2).knowledge :=
  (c6_empty_only_from_final_inference
      (runOps (initAI 2 4)
        [.observe (1, 0) 1, .observe (1, 3) 1, .observe (1, 1) 2])
      (1, 2) 2).2.2 ⟨∅, 0⟩ (by decide) rfl

/-! ### Honest operation sequences and soundness of the knowledge base -/

/-- An operation is honest with respect to a ground-truth mine set `M` on an
`height × width` grid: observations report the true neighbour mine count of
a non-mine cell, `DeclareMine` is called only on true mines and
`DeclareSafe` only on true non-mines. -/
def HonestOp (height width : Int) (M : Finset Cell) : Op → Prop
  | .observe cell count =>
      cell ∉ M ∧ count = ((M ∩ inBoundsNbrs height width cell).card : Int)
  | .declareMine cell => cell ∈ M
  | .declareSafe cell => cell ∉ M

instance (height width : Int) (M : Finset Cell) (op : Op) :
    Decidable (HonestOp height width M op) :=
  match op with
  | .observe cell count =>
      inferInstanceAs (Decidable (cell ∉ M ∧
        count = ((M ∩ inBoundsNbrs height width cell).card : Int)))
  | .declareMine cell => inferInstanceAs (Decidable (cell ∈ M))
  | .declareSafe cell => inferInstanceAs (Decidable (cell ∉ M))

/-- Soundness of the knowledge base with respect to a ground-truth mine set
`M`: declared mines are true mines, declared safes and moves are true
non-mines, and every sentence states the true number of mines among its
cells. -/
structure SoundState (M : Finset Cell) (ai : MinesweeperAI) : Prop where
  mines_sub : ai.mines ⊆ M
  safes_disj : ∀ c ∈ ai.safes, c ∉ M
  moves_disj : ∀ c ∈ ai.moves_made, c ∉ M
  sentences_true : ∀ st ∈ ai.knowledge, st.count = ((st.cells ∩ M).card : Int)

theorem sound_init (h w : Int) (M : Finset Cell) :
    SoundState M (initAI h w) := by
  refine ⟨?_, ?_, ?_, ?_⟩ <;> simp [initAI]

theorem sent_true_mark_safe {M : Finset Cell} {s : Sentence} {c : Cell}
    (hs : s.count = ((s.cells ∩ M).card : Int)) (hc : c ∉ M) :
    (s.mark_safe c).count = (((s.mark_safe c).cells ∩ M).card : Int) := by
  by_cases hcc : c ∈ s.cells
  · rw [Sentence.mark_safe, if_pos hcc]
    show s.count = ((s.cells.erase c ∩ M).card : Int)
    have hset : s.cells.erase c ∩ M = s.cells ∩ M := by
      ext x
      simp only [Finset.mem_inter, Finset.mem_erase]
      constructor
      · rintro ⟨⟨_, hx⟩, hxM⟩
        exact ⟨hx, hxM⟩
      · rintro ⟨hx, hxM⟩
        exact ⟨⟨fun he => hc (he ▸ hxM), hx⟩, hxM⟩
    rw [hset]
    exact hs
  · rw [Sentence.mark_safe, if_neg hcc]
    exact hs

theorem sent_true_mark_mine {M : Finset Cell} {s : Sentence} {c : Cell}
    (hs : s.count = ((s.cells ∩ M).card : Int)) (hc : c ∈ M) :
    (s.mark_mine c).count = (((s.mark_mine c).cells ∩ M).card : Int) := by
  by_cases hcc : c ∈ s.cells
  · rw [Sentence.mark_mine, if_pos hcc]
    show s.count - 1 = ((s.cells.erase c ∩ M).card : Int)
    have hset : s.cells.erase c ∩ M = (s.cells ∩ M).erase c := by
      ext x
      simp only [Finset.mem_inter, Finset.mem_erase]
      tauto
    have hcm : c ∈ s.cells ∩ M := Finset.mem_inter.mpr ⟨hcc, hc⟩
    rw [hset, Finset.card_erase_of_mem hcm]
    have hpos : 0 < (s.cells ∩ M).card := Finset.card_pos.mpr ⟨c, hcm⟩
    omega
  · rw [Sentence.mark_mine, if_neg hcc]
    exact hs

theorem known_safes_not_mine {M : Finset Cell} {s : Sentence}
    (hs : s.count = ((s.cells ∩ M).card : Int)) :
    ∀ c ∈ s.known_safes, c ∉ M := by
  intro c hc hcM
  rw [Sentence.known_safes] at hc
  by_cases h0 : s.count = 0
  · rw [if_pos h0] at hc
    have hcard : (s.cells ∩ M).card = 0 := by omega
    have hemp : s.cells ∩ M = ∅ := Finset.card_eq_zero.mp hcard
    have : c ∈ s.cells ∩ M := Finset.mem_inter.mpr ⟨hc, hcM⟩
    rw [hemp] at this
    exact absurd this (Finset.not_mem_empty c)
  · rw [if_neg h0] at hc
    exact absurd hc (Finset.not_mem_empty c)

theorem known_mines_sub_mines {M : Finset Cell} {s : Sentence}
    (hs : s.count = ((s.cells ∩ M).card : Int)) :
    s.known_mines ⊆ M := by
  intro c hc
  rw [Sentence.known_mines] at hc
  by_cases hcard : (s.cells.card : Int) = s.count
  · rw [if_pos hcard] at hc
    have hcc : s.cells.card ≤ (s.cells ∩ M).card := by omega
    have heq : s.cells ∩ M = s.cells :=
      Finset.eq_of_subset_of_card_le Finset.inter_subset_left hcc
    exact (Finset.mem_inter.mp (heq.symm ▸ hc)).2
  · rw [if_neg hcard] at hc
    exact absurd hc (Finset.not_mem_empty c)

theorem sound_mark_safe {M : Finset Cell} {ai : MinesweeperAI} {c : Cell}
    (hai : SoundState M ai) (hc : c ∉ M) :
    SoundState M (ai.mark_safe c) := by
  refine ⟨hai.mines_sub, ?_, hai.moves_disj, ?_⟩
  · intro x hx
    rcases Finset.mem_insert.mp hx with rfl | hx
    · exact hc
    · exact hai.safes_disj x hx
  · intro st hst
    simp only [MinesweeperAI.mark_safe, List.mem_map] at hst
    rcases hst with ⟨t, ht, rfl⟩
    exact sent_true_mark_safe (hai.sentences_true t ht) hc

theorem sound_mark_mine {M : Finset Cell} {ai : MinesweeperAI} {c : Cell}
    (hai : SoundState M ai) (hc : c ∈ M) :
    SoundState M (ai.mark_mine c) := by
  refine ⟨?_, hai.safes_disj, hai.moves_disj, ?_⟩
  · intro x hx
    rcases Finset.mem_insert.mp hx with rfl | hx
    · exact hc
    · exact hai.mines_sub hx
  · intro st hst
    simp only [MinesweeperAI.mark_mine, List.mem_map] at hst
    rcases hst with ⟨t, ht, rfl⟩
    exact sent_true_mark_mine (hai.sentences_true t ht) hc

theorem sound_markSafeSet {M : Finset Cell} {ai : MinesweeperAI}
    {K : Finset Cell} (hai : SoundState M ai) (hK : ∀ c ∈ K, c ∉ M) :
    SoundState M (markSafeSet ai K) := by
  refine ⟨hai.mines_sub, ?_, hai.moves_disj, ?_⟩
  · intro x hx
    rcases Finset.mem_union.mp hx with hx | hx
    · exact hai.safes_disj x hx
    · exact hK x hx
  · intro st hst
    simp only [markSafeSet, List.mem_map] at hst
    rcases hst with ⟨t, ht, rfl⟩
    show t.count = ((t.cells \ K ∩ M).card : Int)
    have hset : t.cells \ K ∩ M = t.cells ∩ M := by
      ext x
      simp only [Finset.mem_inter, Finset.mem_sdiff]
      constructor
      · rintro ⟨⟨hx, _⟩, hxM⟩
        exact ⟨hx, hxM⟩
      · rintro ⟨hx, hxM⟩
        exact ⟨⟨hx, fun hxK => hK x hxK hxM⟩, hxM⟩
    rw [hset]
    exact hai.sentences_true t ht

theorem sound_markMineSet {M : Finset Cell} {ai : MinesweeperAI}
    {K : Finset Cell} (hai : SoundState M ai) (hK : K ⊆ M) :
    SoundState M (markMineSet ai K) := by
  refine ⟨?_, hai.safes_disj, hai.moves_disj, ?_⟩
  · intro x hx
    rcases Finset.mem_union.mp hx with hx | hx
    · exact hai.mines_sub hx
    · exact hK hx
  · intro st hst
    simp only [markMineSet, List.mem_map] at hst
    rcases hst with ⟨t, ht, rfl⟩
    show t.count - ((t.cells ∩ K).card : Int) = ((t.cells \ K ∩ M).card : Int)
    have hset : t.cells \ K ∩ M = (t.cells ∩ M) \ (t.cells ∩ K) := by
      ext x
      simp only [Finset.mem_inter, Finset.mem_sdiff, not_and]
      constructor
      · rintro ⟨⟨hx, hxK⟩, hxM⟩
        exact ⟨⟨hx, hxM⟩, fun _ => hxK⟩
      · rintro ⟨⟨hx, hxM⟩, hxK⟩
        exact ⟨⟨hx, hxK hx⟩, hxM⟩
    have hsub : t.cells ∩ K ⊆ t.cells ∩ M :=
      Finset.inter_subset_inter (Finset.Subset.refl _) hK
    rw [hset, Finset.card_sdiff hsub]
    have hle := Finset.card_le_card hsub
    have ht2 := hai.sentences_true t ht
    omega

theorem sent_true_getD {M : Finset Cell} {ks : List Sentence} (i : Nat)
    (hks : ∀ st ∈ ks, st.count = ((st.cells ∩ M).card : Int)) :
    (ks.getD i ⟨∅, 0⟩).count =
      (((ks.getD i ⟨∅, 0⟩).cells ∩ M).card : Int) := by
  by_cases hi : i < ks.length
  · rw [List.getD_eq_getElem ks _ hi]
    exact hks _ (List.getElem_mem hi)
  · rw [List.getD_eq_default ks _ (Nat.le_of_not_lt hi)]
    simp

theorem sound_markPassStep {M : Finset Cell} {ai : MinesweeperAI}
    (hai : SoundState M ai) (i : Nat) :
    SoundState M (markPassStep ai i) := by
  have hs := sent_true_getD (M := M) i hai.sentences_true
  have h1 : SoundState M
      (markSafeSet ai (ai.knowledge.getD i ⟨∅, 0⟩).known_safes) :=
    sound_markSafeSet hai (known_safes_not_mine hs)
  have hs1 := sent_true_getD (M := M) i h1.sentences_true
  exact sound_markMineSet h1 (known_mines_sub_mines hs1)

theorem sound_markPass {M : Finset Cell} {ai : MinesweeperAI}
    (hai : SoundState M ai) : SoundState M (markPass ai) := by
  rw [markPass]
  generalize List.range ai.knowledge.length = l
  induction l generalizing ai with
  | nil => exact hai
  | cons i l ih => exact ih (sound_markPassStep hai i)

theorem sound_purgeEmpty {M : Finset Cell} {ai : MinesweeperAI}
    (hai : SoundState M ai) : SoundState M (purgeEmpty ai) := by
  refine ⟨hai.mines_sub, hai.safes_disj, hai.moves_disj, ?_⟩
  intro st hst
  exact hai.sentences_true st (List.mem_of_mem_filter hst)

theorem sent_true_derived {M : Finset Cell} {ks : List Sentence}
    (hks : ∀ st ∈ ks, st.count = ((st.cells ∩ M).card : Int)) :
    ∀ st ∈ derivedSentences ks,
      st.count = ((st.cells ∩ M).card : Int) := by
  intro st hst
  rcases mem_derivedSentences.mp hst with ⟨i, j, _, _, _, hsub, rfl⟩
  have hsi := sent_true_getD (M := M) i hks
  have hsj := sent_true_getD (M := M) j hks
  show (ks.getD j ⟨∅, 0⟩).count - (ks.getD i ⟨∅, 0⟩).count =
    (((ks.getD j ⟨∅, 0⟩).cells \ (ks.getD i ⟨∅, 0⟩).cells ∩ M).card : Int)
  have hset : (ks.getD j ⟨∅, 0⟩).cells \ (ks.getD i ⟨∅, 0⟩).cells ∩ M =
      ((ks.getD j ⟨∅, 0⟩).cells ∩ M) \ ((ks.getD i ⟨∅, 0⟩).cells ∩ M) := by
    ext x
    simp only [Finset.mem_inter, Finset.mem_sdiff, not_and]
    constructor
    · rintro ⟨⟨hx, hxi⟩, hxM⟩
      exact ⟨⟨hx, hxM⟩, fun hxc => absurd hxc hxi⟩
    · rintro ⟨⟨hx, hxM⟩, hxi⟩
      exact ⟨⟨hx, fun hxc => hxi hxc hxM⟩, hxM⟩
  have hsub2 : (ks.getD i ⟨∅, 0⟩).cells ∩ M ⊆
      (ks.getD j ⟨∅, 0⟩).cells ∩ M :=
    Finset.inter_subset_inter hsub (Finset.Subset.refl M)
  rw [hset, Finset.card_sdiff hsub2]
  have hle := Finset.card_le_card hsub2
  omega

theorem sent_true_scan {M : Finset Cell} {ai : MinesweeperAI}
    (hai : SoundState M ai) (cell : Cell) (count : Int)
    (hcount : count =
      ((M ∩ inBoundsNbrs ai.height ai.width cell).card : Int)) :
    (scanNeighbors ai cell count).2 =
      (((scanNeighbors ai cell count).1 ∩ M).card : Int) := by
  rw [scanNeighbors_eq]
  dsimp only
  set nb := inBoundsNbrs ai.height ai.width cell with hnb
  have hset : nb \ (ai.moves_made ∪ ai.mines) ∩ M =
      (nb ∩ M) \ (nb ∩ ai.mines) := by
    ext x
    simp only [Finset.mem_sdiff, Finset.mem_inter, Finset.mem_union, not_or,
      not_and]
    constructor
    · rintro ⟨⟨hx, _, hmn⟩, hxM⟩
      exact ⟨⟨hx, hxM⟩, fun _ => hmn⟩
    · rintro ⟨⟨hx, hxM⟩, hmn⟩
      exact ⟨⟨hx, fun hmv => hai.moves_disj x hmv hxM, hmn hx⟩, hxM⟩
  have hsub : nb ∩ ai.mines ⊆ nb ∩ M :=
    Finset.inter_subset_inter (Finset.Subset.refl nb) hai.mines_sub
  rw [hset, Finset.card_sdiff hsub]
  have hle := Finset.card_le_card hsub
  have hcomm : M ∩ nb = nb ∩ M := Finset.inter_comm M nb
  rw [hcomm] at hcount
  omega

theorem sound_recordStep {M : Finset Cell} {ai : MinesweeperAI} {cell : Cell}
    {count : Int} (hai : SoundState M ai) (hcell : cell ∉ M)
    (hcount : count =
      ((M ∩ inBoundsNbrs ai.height ai.width cell).card : Int)) :
    SoundState M (recordStep ai cell count) := by
  have hai1 : SoundState M { ai with moves_made := insert cell ai.moves_made } := by
    refine ⟨hai.mines_sub, hai.safes_disj, ?_, hai.sentences_true⟩
    intro x hx
    rcases Finset.mem_insert.mp hx with rfl | hx
    · exact hcell
    · exact hai.moves_disj x hx
  have hai2 : SoundState M
      (MinesweeperAI.mark_safe
        { ai with moves_made := insert cell ai.moves_made } cell) :=
    sound_mark_safe hai1 hcell
  rw [recordStep]
  set ai2 := MinesweeperAI.mark_safe
    { ai with moves_made := insert cell ai.moves_made } cell with hai2def
  by_cases hne : (scanNeighbors ai2 cell count).1 ≠ ∅
  · rw [if_pos hne]
    by_cases hmem :
        (⟨(scanNeighbors ai2 cell count).1,
          (scanNeighbors ai2 cell count).2⟩ : Sentence) ∈ ai2.knowledge
    · rw [if_pos hmem]
      exact hai2
    · rw [if_neg hmem]
      refine ⟨hai2.mines_sub, hai2.safes_disj, hai2.moves_disj, ?_⟩
      intro st hst
      rcases List.mem_append.mp hst with hst | hst
      · exact hai2.sentences_true st hst
      · rcases List.mem_singleton.mp hst with rfl
        exact sent_true_scan hai2 cell count hcount
  · rw [if_neg hne]
    exact hai2

theorem sound_closurePass {M : Finset Cell} {ai : MinesweeperAI}
    (hai : SoundState M ai) : SoundState M (closurePass ai).1 := by
  have h1 : SoundState M (purgeEmpty (markPass ai)) :=
    sound_purgeEmpty (sound_markPass hai)
  refine ⟨h1.mines_sub, h1.safes_disj, h1.moves_disj, ?_⟩
  intro st hst
  rcases List.mem_append.mp hst with hst | hst
  · exact h1.sentences_true st hst
  · exact sent_true_derived h1.sentences_true st hst

theorem markPass_dims (ai : MinesweeperAI) :
    (markPass ai).height = ai.height ∧ (markPass ai).width = ai.width := by
  rw [markPass]
  generalize List.range ai.knowledge.length = l
  induction l generalizing ai with
  | nil => exact ⟨rfl, rfl⟩
  | cons i l ih =>
      rw [List.foldl_cons]
      exact ⟨(ih (markPassStep ai i)).1.trans rfl,
             (ih (markPassStep ai i)).2.trans rfl⟩

theorem recordStep_dims (ai : MinesweeperAI) (cell : Cell) (count : Int) :
    (recordStep ai cell count).height = ai.height ∧
    (recordStep ai cell count).width = ai.width := by
  dsimp only [recordStep]
  split_ifs <;> exact ⟨rfl, rfl⟩

theorem add_knowledge_dims (ai : MinesweeperAI) (cell : Cell) (count : Int) :
    (ai.add_knowledge cell count).1.height = ai.height ∧
    (ai.add_knowledge cell count).1.width = ai.width := by
  have h1 := markPass_dims (recordStep ai cell count)
  have h2 := recordStep_dims ai cell count
  constructor
  · calc (ai.add_knowledge cell count).1.height
        = (markPass (recordStep ai cell count)).height := rfl
      _ = (recordStep ai cell count).height := h1.1
      _ = ai.height := h2.1
  · calc (ai.add_knowledge cell count).1.width
        = (markPass (recordStep ai cell count)).width := rfl
      _ = (recordStep ai cell count).width := h1.2
      _ = ai.width := h2.2

theorem applyOp_dims (ai : MinesweeperAI) (op : Op) :
    (applyOp ai op).height = ai.height ∧ (applyOp ai op).width = ai.width := by
  cases op with
  | observe cell count => exact add_knowledge_dims ai cell count
  | declareMine cell => exact ⟨rfl, rfl⟩
  | declareSafe cell => exact ⟨rfl, rfl⟩

theorem sound_runOps {h w : Int} {M : Finset Cell} :
    ∀ (ops : List Op) (ai : MinesweeperAI), SoundState M ai →
      ai.height = h → ai.width = w →
      (∀ op ∈ ops, HonestOp h w M op) → SoundState M (runOps ai ops)
  | [], _, hai, _, _, _ => hai
  | op :: ops, ai, hai, hh, hw, hops => by
      have hstep : SoundState M (applyOp ai op) := by
        have hop := hops op (List.mem_cons_self op ops)
        cases op with
        | observe cell count =>
            rcases hop with ⟨hcell, hcount⟩
            refine sound_closurePass (sound_recordStep hai hcell ?_)
            rw [hh, hw]
            exact hcount
        | declareMine cell => exact sound_mark_mine hai hop
        | declareSafe cell => exact sound_mark_safe hai hop
      exact sound_runOps ops (applyOp ai op) hstep
        ((applyOp_dims ai op).1.trans hh) ((applyOp_dims ai op).2.trans hw)
        (fun o ho => hops o (List.mem_cons_of_mem op ho))

/-! ### Claim C7 — sentence count bounds -/

/-- Claim C7, counterexample: from a fresh 3×3 agent, observe `(1,1)` with
count 1 and then declare two of the eight neighbours mines — the surviving
constraint's count drops to `-1`, violating `0 ≤ count`. The claim as
stated quantifies over all call sequences, including ones whose
declarations contradict the observation. -/
theorem c7_negative_count_reachable :
    ¬ ∀ st ∈ (runOps (initAI 3 3)
          [.observe (1, 1) 1, .declareMine (0, 0), .declareMine (0, 1)]).knowledge,
        0 ≤ st.count ∧ st.count ≤ (st.cells.card : Int) := by
  decide

/-- Claim C7, amended: for every sequence of operations that is honest with
respect to some ground-truth mine set (observations report true neighbour
counts of non-mine cells, declarations agree with the ground truth), every
live constraint satisfies `0 ≤ count ≤ |cells|` after every call. -/
theorem c7_bounds_under_honest_ops (h w : Int) (M : Finset Cell)
    (ops : List Op) (hops : ∀ op ∈ ops, HonestOp h w M op) :
    ∀ st ∈ (runOps (initAI h w) ops).knowledge,
      0 ≤ st.count ∧ st.count ≤ (st.cells.card : Int) := by
  have hs := sound_runOps ops (initAI h w) (sound_init h w M) rfl rfl hops
  intro st hst
  have ht := hs.sentences_true st hst
  constructor
  · rw [ht]
    exact_mod_cast Nat.zero_le _
  · rw [ht]
    exact_mod_cast Finset.card_le_card Finset.inter_subset_left

/-- Witness for `c7_bounds_under_honest_ops` on the honest trace
`exampleTraceC6` and the live constraint `{(0,0),(0,1)} = 1`. -/
theorem c7_bounds_witness :
    0 ≤ (Sentence.mk {(0, 0), (0, 1)} 1).count ∧
    (Sentence.mk {(0, 0), (0, 1)} 1).count ≤
      ((Sentence.mk {(0, 0), (0, 1)} 1).cells.card : Int) :=
  c7_bounds_under_honest_ops 2 4 {(0, 1), (0, 2)} exampleTraceC6 (by decide)
    ⟨{(0, 0), (0, 1)}, 1⟩ (by decide)

/-! ### Claim C8 — disjointness of the safe and mine sets -/

/-- Claim C8, counterexample: nothing stops a cell from entering both sets —
`DeclareSafe((0,0))` followed by `DeclareMine((0,0))` puts `(0,0)` in
`knownSafe ∩ knownMines`, so the claimed invariant fails for arbitrary call
sequences. -/
theorem c8_safe_and_mine_overlap :
    ¬ (runOps (initAI 2 2) [.declareSafe (0, 0), .declareMine (0, 0)]).safes ∩
        (runOps (initAI 2 2) [.declareSafe (0, 0), .declareMine (0, 0)]).mines
      = ∅ := by
  decide

/-- Claim C8, amended: for every sequence of operations honest with respect
to some ground-truth mine set, `knownSafe ∩ knownMines = ∅` holds after
every call (declared safes avoid the ground truth, declared mines lie in
it). -/
theorem c8_disjoint_under_honest_ops (h w : Int) (M : Finset Cell)
    (ops : List Op) (hops : ∀ op ∈ ops, HonestOp h w M op) :
    (runOps (initAI h w) ops).safes ∩ (runOps (initAI h w) ops).mines = ∅ := by
  have hs := sound_runOps ops (initAI h w) (sound_init h w M) rfl rfl hops
  ext c
  simp only [Finset.mem_inter, Finset.not_mem_empty, iff_false, not_and]
  intro hcs hcm
  exact hs.safes_disj c hcs (hs.mines_sub hcm)

/-- Witness for `c8_disjoint_under_honest_ops` on a small honest trace. -/
theorem c8_disjoint_witness :
    (runOps (initAI 3 3) [.observe (1, 1) 0]).safes ∩
      (runOps (initAI 3 3) [.observe (1, 1) 0]).mines = ∅ :=
  c8_disjoint_under_honest_ops 3 3 ∅ [.observe (1, 1) 0] (by decide)
